import Mathlib

/-!
Verification of the Inscrypt core against its specification.

The Python source is shallowly embedded: byte strings become `List Nat`
(each entry a byte value), numpy float sample buffers become `List ℚ`
(float32 holds every value that actually flows through the code paths we
prove about, so rational arithmetic is exact on them), int16 sample
buffers become `List ℤ`, and fallible functions return `Except String`.
External libraries (pycryptodome ciphers and hashes, base64, soundfile)
are modelled by a record of abstract functions together with the
documented contracts the code relies on (cipher decrypt inverts encrypt
with the same key and nonce, base64 decode inverts encode, digest sizes).
-/

set_option maxRecDepth 16000

namespace Inscrypt

/-- Big-endian bits of the low `w` bits of `n`, most significant first.
Models the Python bit strings produced by string formatting with a fixed
width. -/
def natBitsBE : Nat → Nat → List Nat
  | 0, _ => []
  | w + 1, n => (n / 2 ^ w) % 2 :: natBitsBE w n

/-- The eight bits of one byte, most significant first.
Models the per-byte formatting used to build Python bit streams. -/
def byteBits (b : Nat) : List Nat := natBitsBE 8 b

/-- Concatenated bits of a byte string, as the Python code builds them. -/
def bytesToBits (bs : List Nat) : List Nat := (bs.map byteBits).flatten

/-- Value of a big-endian bit list; models Python int conversion of a bit
string with base two. -/
def bitsToNat (bits : List Nat) : Nat := bits.foldl (fun a b => 2 * a + b) 0

/-- Regroup a bit list into bytes of eight bits, most significant first;
a trailing partial chunk becomes the value of its bits, exactly like the
Python byte-building loops. -/
def bitsToBytes : List Nat → List Nat
  | b1 :: b2 :: b3 :: b4 :: b5 :: b6 :: b7 :: b8 :: rest =>
      bitsToNat [b1, b2, b3, b4, b5, b6, b7, b8] :: bitsToBytes rest
  | [] => []
  | shorter => [bitsToNat shorter]

/-- Big-endian byte string of width `w` for `n`; models Python
int.to_bytes with byteorder big. -/
def natToBytesBE : Nat → Nat → List Nat
  | 0, _ => []
  | w + 1, n => (n / 256 ^ w) % 256 :: natToBytesBE w n

/-- The bytes of the magic marker INSCRYPT_STEGO from the source. -/
def stegoMagic : List Nat := [73, 78, 83, 67, 82, 89, 80, 84, 95, 83, 84, 69, 71, 79]

/-- Overwrite the least significant bit of a channel value: models the
Python expression (value AND NOT 1) OR bit on a nonnegative byte value. -/
def putBit (c b : Nat) : Nat := 2 * (c / 2) + b

/-- Overwrite the LSBs of the leading channel values with the given bits
and leave the remaining values unchanged; this is the flattened
(row-major, channel-minor) content of the pixel loops of lsb_embed_image
and of the image service, which each write one bit per channel value in
that order and stop when the bits are exhausted. -/
def setLsbs : List Nat → List Nat → List Nat
  | _, [] => []
  | [], cs => cs
  | b :: bs, c :: cs => putBit c b :: setLsbs bs cs

/-- Wrapped payload frame of the v1 codecs: the 4-byte big-endian length
of (STEGO_MAGIC ++ message) followed by STEGO_MAGIC ++ message. -/
def frameV1 (message : List Nat) : List Nat :=
  natToBytesBE 4 (stegoMagic ++ message).length ++ (stegoMagic ++ message)

/-- The bit stream of the v1 wrapped frame. -/
def frameBitsV1 (message : List Nat) : List Nat := bytesToBits (frameV1 message)

/-- One run of lsb_embed_image on the flattened channel values of the
carrier. The pixel loop runs first and overwrites one LSB per channel
value until the frame bits are exhausted or the image ends; only after
the loop does the function compare the write position with the frame
length and raise. The first component is the in-memory pixel buffer
after the loop, the second the error raised afterwards (when it is some,
the stego image is never saved to disk). -/
def lsbEmbedImageRun (channels : List Nat) (message : List Nat) :
    List Nat × Option String :=
  let bits := frameBitsV1 message
  (setLsbs bits channels,
    if channels.length < bits.length then some "Image too small for LSB payload" else none)

/-- lsb_embed_image as a fallible function: the saved stego channels on
success, the raised error otherwise. -/
def lsbEmbedImage (channels : List Nat) (message : List Nat) : Except String (List Nat) :=
  match lsbEmbedImageRun channels message with
  | (out, none) => .ok out
  | (_, some e) => .error e

/-- The 32-bit length prefix decoded from the first 32 channel LSBs. -/
def imgDeclaredLen (channels : List Nat) : Nat :=
  bitsToNat ((channels.take 32).map (· % 2))

/-- The bytes rebuilt from the declared number of payload bits read after
the 32-bit prefix. -/
def imgCandidate (channels : List Nat) : List Nat :=
  bitsToBytes (((channels.drop 32).take (imgDeclaredLen channels * 8)).map (· % 2))

/-- lsb_extract_image on the flattened channel values. When the carrier
has fewer than 32 channel values, the call to next inside the generator
expression of read_bits raises StopIteration on exhaustion, and PEP 479
converts that into a RuntimeError which is NOT caught by the except
clause for StopIteration and ValueError, so the function raises there
(the error branch below). After the length range check passes, the
declared number of bits always fits, so the payload read never exhausts
the iterator, and the int conversions of 0 and 1 digit strings never
raise ValueError, so no other raise is reachable; the remaining
branches return normally. -/
def lsbExtractImage (channels : List Nat) : Except String (List Nat) :=
  if channels.length < 32 then .error "RuntimeError: generator raised StopIteration"
  else
    if 0 < imgDeclaredLen channels ∧
        imgDeclaredLen channels ≤ (channels.length - 32) / 8 then
      if (imgCandidate channels).take stegoMagic.length = stegoMagic then
        .ok ((imgCandidate channels).drop stegoMagic.length)
      else .ok []
    else .ok []

/-- ImageSteganographyService embedding on the flattened RGBA channel
values: a 32-bit big-endian prefix holding the payload bit count, then
the payload bits; the capacity check runs before any pixel is written. -/
def svcEmbed (channels : List Nat) (data : List Nat) : Except String (List Nat) :=
  let binaryData := bytesToBits data
  let dataLen := binaryData.length
  if channels.length < dataLen + 32 then
    .error "Data is too large to hide in the image."
  else .ok (setLsbs (natBitsBE 32 dataLen ++ binaryData) channels)

/-- The payload-bit collection loop of the service extraction. The source
initializes its position counter to 32 and then restarts the pixel scan
from the first pixel with the skip condition (position greater than 31),
which is immediately true, so the collected bits are the LSBs of the
first actualLen channel values, starting at flattened position 0. -/
def svcExtractBits (channels : List Nat) (actualLen : Nat) : Except String (List Nat) :=
  let bits := (channels.take actualLen).map (· % 2)
  if bits.length < actualLen then .error "Incomplete data extracted from image."
  else .ok (bitsToBytes bits)

/-- ImageSteganographyService extraction on the flattened RGBA channel
values; the optional expected length is compared with the decoded prefix
only when it is nonzero (Python truthiness). -/
def svcExtract (channels : List Nat) (dataLength : Option Nat) : Except String (List Nat) :=
  if channels.length < 32 then .error "Could not extract data length from image."
  else
    let actualLen := bitsToNat ((channels.take 32).map (· % 2))
    match dataLength with
    | some dl =>
      if dl ≠ 0 ∧ dl ≠ actualLen then
        .error "Provided data length does not match extracted length."
      else svcExtractBits channels actualLen
    | none => svcExtractBits channels actualLen

/-- The frame loop of _video_mv_embed. The first cap.read gives the
initial previous frame; every later frame is appended to the output list
unmodified. The tracking outcome of loop iteration i (whether
goodFeaturesToTrack plus calcOpticalFlowPyrLK produced at least one good
point between the previous and current grayscale frames) is abstracted
as track i; a successful iteration only advances the bit counter while
it is below the bit-stream length, so the loop ends with the counter at
the minimum of the bit-stream length and the number of good pairs. The
embedded bit stream is the message bits plus an 8-bit terminator of
ones. -/
def mvEmbed {α : Type} (track : Nat → Bool) (frames : List α) (message : List Nat) :
    Except String (List α) :=
  match frames with
  | [] => .error "Empty video"
  | _ :: rest =>
    let bitsLen := 8 * message.length + 8
    let good := ((List.range rest.length).filter fun i => track i).length
    if good < bitsLen then .error "Video too short for MotionVector payload"
    else .ok rest

/-- Truncation toward zero, as a numpy astype cast of a float to an
integer dtype truncates. -/
def ratTrunc (q : ℚ) : ℤ := if 0 ≤ q then ⌊q⌋ else ⌈q⌉

/-- Wrap into the int16 range, the effect of storing into an int16
array. -/
def wrap16 (z : ℤ) : ℤ := (z + 32768) % 65536 - 32768

/-- The float-to-int16 conversion of _lsb_embed: clip the sample into
[-1, 1], scale by 32767 and cast to int16. -/
def audioEmbedQuant (s : ℚ) : ℤ := wrap16 (ratTrunc (max (-1) (min 1 s) * 32767))

/-- The float-to-int16 conversion of _lsb_extract: scale by 32768 and
cast to int16 (the source comments that this reverses the soundfile
normalization by 32768). -/
def audioExtractQuant (s : ℚ) : ℤ := wrap16 (ratTrunc (s * 32768))

/-- The int16-to-float conversion of the save path in
hide_message_in_audio (astype float32 divided by 32768.0); the PCM_16
write and float32 read cycle of soundfile is exact on such values, so
the samples handed to _lsb_extract are exactly these. -/
def audioToFloat (v : ℤ) : ℚ := (v : ℚ) / 32768

/-- Overwrite the least significant bit of an int16 sample in two's
complement, the numpy expression (value AND NOT 1) OR bit. -/
def putBitZ (v : ℤ) (b : Nat) : ℤ := v - v % 2 + b

/-- The least significant bit of an int16 sample (value AND 1). -/
def lsbZ (v : ℤ) : Nat := (v % 2).toNat

/-- Overwrite the LSBs of the leading int16 samples with the given bits,
the embedding loop of _lsb_embed. -/
def setLsbsZ : List Nat → List ℤ → List ℤ
  | _, [] => []
  | [], cs => cs
  | b :: bs, c :: cs => putBitZ c b :: setLsbsZ bs cs

/-- _lsb_embed on the in-memory float samples: quantize every sample
with the 32767 scale, then overwrite the leading LSBs with the wrapped
frame bits after the capacity check. -/
def lsbEmbedAudio (samples : List ℚ) (message : List Nat) : Except String (List ℤ) :=
  let int16 := samples.map audioEmbedQuant
  let bits := frameBitsV1 message
  if int16.length < bits.length then .error "Audio too short for LSB payload"
  else .ok (setLsbsZ bits int16)

/-- The 32-bit length prefix decoded from the LSBs of the first 32 int16
samples. -/
def audioDeclaredLen (int16 : List ℤ) : Nat := bitsToNat ((int16.take 32).map lsbZ)

/-- The bytes rebuilt from the declared number of payload bits after the
32-bit prefix. -/
def audioCandidate (int16 : List ℤ) : List Nat :=
  bitsToBytes (((int16.drop 32).take (audioDeclaredLen int16 * 8)).map lsbZ)

/-- The parsing part of _lsb_extract, on the already quantized int16
samples: the 32-bit length prefix, the range check, the
enough-samples-left check, the declared payload bits and the magic
marker, returning empty bytes whenever a check fails. -/
def lsbExtractAudioInt (int16 : List ℤ) : List Nat :=
  if int16.length < 32 then []
  else
    if 0 < audioDeclaredLen int16 ∧
        audioDeclaredLen int16 ≤ (int16.length - 32) / 8 then
      if int16.length < 32 + audioDeclaredLen int16 * 8 then []
      else
        if (audioCandidate int16).take stegoMagic.length = stegoMagic then
          (audioCandidate int16).drop stegoMagic.length
        else []
    else []

/-- _lsb_extract on the in-memory float samples: quantize every sample
with the 32768 scale, then parse. -/
def lsbExtractAudio (samples : List ℚ) : List Nat :=
  lsbExtractAudioInt (samples.map audioExtractQuant)

/-- ASCII lowercasing of one character, as Python str.lower acts on the
ASCII identifiers used here. -/
def lowerChar (c : Char) : Char :=
  if 'A' ≤ c ∧ c ≤ 'Z' then Char.ofNat (c.toNat + 32) else c

/-- ASCII lowercasing of a string. -/
def lowerStr (s : String) : String := ⟨s.data.map lowerChar⟩

/-- Increment of a little-endian decimal digit string. -/
def decSuccRev : List Char → List Char
  | [] => ['1']
  | c :: rest => if c = '9' then '0' :: decSuccRev rest else Char.ofNat (c.toNat + 1) :: rest

/-- Little-endian decimal digits of a natural number. -/
def natDigitsRev : Nat → List Char
  | 0 => ['0']
  | n + 1 => decSuccRev (natDigitsRev n)

/-- The decimal rendering of a natural number, as Python str produces for
a nonnegative int. -/
def natDigitsChar (n : Nat) : List Char := (natDigitsRev n).reverse

/-- The pycryptodome hash module objects reachable from _HASH_MAP; the
map entry whirlpool aliases the SHA512 module (the import renames SHA512
as Whirlpool), so there is no separate whirlpool constructor. -/
inductive HashMod where
  | sha1 | sha224 | sha256 | sha384 | sha512
  | sha3x224 | sha3x256 | sha3x384 | sha3x512
  | shake128 | shake256 | cshake128 | cshake256
  | tuplehash128 | tuplehash256 | kangarooTwelve | keccak
deriving DecidableEq

/-- _HASH_MAP in source order. Note the misspelled key kangorootwelve
and the whirlpool alias of SHA512; blake2b and blake2s have no entry. -/
def hashMap : List (String × HashMod) :=
  [("keccak", .keccak), ("sha1", .sha1), ("sha224", .sha224), ("sha256", .sha256),
   ("sha384", .sha384), ("sha512", .sha512), ("sha3_224", .sha3x224),
   ("sha3_256", .sha3x256), ("sha3_384", .sha3x384), ("sha3_512", .sha3x512),
   ("tuplehash128", .tuplehash128), ("tuplehash256", .tuplehash256),
   ("shake128", .shake128), ("shake256", .shake256), ("cshake128", .cshake128),
   ("cshake256", .cshake256), ("kangorootwelve", .kangarooTwelve),
   ("whirlpool", .sha512)]

/-- Association lookup with decidable keys, the dict read. -/
def dlookup {κ α : Type} [DecidableEq κ] (k : κ) : List (κ × α) → Option α
  | [] => none
  | (k2, v) :: rest => if k = k2 then some v else dlookup k rest

/-- Python dict assignment: overwrite the entry in place when the key
exists, append otherwise. -/
def dinsert {κ α : Type} [DecidableEq κ] (k : κ) (v : α) : List (κ × α) → List (κ × α)
  | [] => [(k, v)]
  | (k2, v2) :: rest => if k = k2 then (k, v) :: rest else (k2, v2) :: dinsert k v rest

/-- Apply a function to every stored value. -/
def mapVals {κ α β : Type} (f : α → β) (d : List (κ × α)) : List (κ × β) :=
  d.map fun p => (p.1, f p.2)

/-- _get_hash: case-insensitive lookup in _HASH_MAP, a ValueError for a
missing key (the whirlpool entry resolves because of the SHA512 alias;
blake2b, blake2s and the correctly spelled kangarootwelve do not). -/
def getHash (name : String) : Except String HashMod :=
  match dlookup (lowerStr name) hashMap with
  | some h => .ok h
  | none => .error ("Unsupported hash: " ++ name)

/-- Membership of the hash module in the extendable-output set tested by
_kdf. -/
def HashMod.isXof : HashMod → Bool
  | .shake128 | .shake256 | .cshake128 | .cshake256
  | .kangarooTwelve | .tuplehash128 | .tuplehash256 => true
  | _ => false

/-- Native digest length in bytes of the fixed-output modules, as
pycryptodome produces (whirlpool is the SHA512 alias so its length is
64); the value for keccak and the XOF modules is unused because _kdf
never reaches a digest call for them. -/
def HashMod.digestLen : HashMod → Nat
  | .sha1 => 20
  | .sha224 => 28
  | .sha256 => 32
  | .sha384 => 48
  | .sha512 => 64
  | .sha3x224 => 28
  | .sha3x256 => 32
  | .sha3x384 => 48
  | .sha3x512 => 64
  | _ => 0

/-- The hash modules whose new constructor rejects a bare data keyword
in pycryptodome (keccak and TupleHash require a digest size argument),
so h.new(data=data) inside _kdf raises a TypeError for them. -/
def HashMod.newRejectsData : HashMod → Bool
  | .keccak | .tuplehash128 | .tuplehash256 => true
  | _ => false

/-- The abstract interface of the external libraries used by
encryption.py: per-algorithm cipher core and EAX tag over the ciphertext
(pycryptodome), fixed-output digests and XOF reads, and base64. The
functions are parameters; the contracts the proofs need (decrypt inverts
encrypt, base64 decode inverts encode, output lengths) appear as
hypotheses of the theorems. -/
structure CryptoLib where
  enc : String → List Nat → List Nat → List Nat → List Nat
  dec : String → List Nat → List Nat → List Nat → List Nat
  tag : String → List Nat → List Nat → List Nat → List Nat
  hashDigest : HashMod → List Nat → List Nat
  xofRead : HashMod → Nat → List Nat → List Nat
  b64e : List Nat → List Nat
  b64d : List Nat → List Nat

/-- The key lengths each pycryptodome cipher constructor accepts, in
bytes; a key of any other length raises at cipher construction, before
any data is processed. The argument is the lowercased algorithm name. -/
def keyLenOk (a : String) (n : Nat) : Bool :=
  match a with
  | "aes" => n == 16 || n == 24 || n == 32
  | "des" => n == 8
  | "des3" => n == 16 || n == 24
  | "blowfish" => 4 ≤ n && n ≤ 56
  | "arc2" => 5 ≤ n && n ≤ 128
  | "cast" => 5 ≤ n && n ≤ 16
  | "chacha20" => n == 32
  | "salsa20" => n == 16 || n == 32
  | "arc4" => 5 ≤ n && n ≤ 256
  | _ => false

/-- The per-layer key size chosen by encrypt_data and decrypt_data: 8
for des, 32 for chacha20 and salsa20, 16 otherwise. -/
def keySizeFor (algo : String) : Nat :=
  if lowerStr algo = "chacha20" ∨ lowerStr algo = "salsa20" then 32
  else if lowerStr algo = "des" then 8 else 16

/-- _kdf: resolve the hash, hash password bytes concatenated with the
decimal digits of the layer index, read size bytes from an XOF or take
the first size bytes of a fixed digest. keccak and the TupleHash modules
raise a TypeError at h.new(data=data) because their constructors require
a digest size argument. -/
def kdf (L : CryptoLib) (keyMaterial : List Nat) (hashName : String) (size idx : Nat) :
    Except String (List Nat) :=
  match getHash hashName with
  | .error e => .error e
  | .ok h =>
    if h.newRejectsData then .error "TypeError: new expects a digest size"
    else
      let data := keyMaterial ++ (natDigitsChar idx).map Char.toNat
      if h.isXof then .ok (L.xofRead h size data)
      else .ok ((L.hashDigest h data).take size)

/-- _encrypt_layer: the six EAX branches store nonce and tag, the two
stream ciphers store only the fresh nonce, arc4 stores nothing; an
unknown name raises. The fresh randomness consumed by the cipher
constructor is the nonce argument. -/
def encryptLayer (L : CryptoLib) (algo : String) (key nonce pt : List Nat) :
    Except String (List Nat × Option (List Nat) × Option (List Nat)) :=
  match lowerStr algo with
  | "aes" | "des" | "des3" | "blowfish" | "arc2" | "cast" =>
    if keyLenOk (lowerStr algo) key.length then
      let ct := L.enc (lowerStr algo) key nonce pt
      .ok (ct, some nonce, some (L.tag (lowerStr algo) key nonce ct))
    else .error "Incorrect key length"
  | "chacha20" | "salsa20" =>
    if keyLenOk (lowerStr algo) key.length then
      .ok (L.enc (lowerStr algo) key nonce pt, some nonce, none)
    else .error "Incorrect key length"
  | "arc4" =>
    if keyLenOk "arc4" key.length then .ok (L.enc "arc4" key [] pt, none, none)
    else .error "Incorrect key length"
  | _ => .error ("Unsupported algorithm: " ++ lowerStr algo)

/-- _decrypt_layer: the EAX branches read meta nonce and tag (a missing
entry is a KeyError), verify the tag over the ciphertext and fail closed
on mismatch; the stream branches read only the nonce; arc4 ignores the
metadata entirely. -/
def decryptLayer (L : CryptoLib) (algo : String) (key ct : List Nat)
    (nonceOpt tagOpt : Option (List Nat)) : Except String (List Nat) :=
  match lowerStr algo with
  | "aes" | "des" | "des3" | "blowfish" | "arc2" | "cast" =>
    match nonceOpt, tagOpt with
    | some n, some t =>
      if keyLenOk (lowerStr algo) key.length then
        if L.tag (lowerStr algo) key n ct = t then .ok (L.dec (lowerStr algo) key n ct)
        else .error "MAC check failed"
      else .error "Incorrect key length"
    | _, _ => .error "KeyError"
  | "chacha20" | "salsa20" =>
    match nonceOpt with
    | some n =>
      if keyLenOk (lowerStr algo) key.length then .ok (L.dec (lowerStr algo) key n ct)
      else .error "Incorrect key length"
    | none => .error "KeyError"
  | "arc4" =>
    if keyLenOk "arc4" key.length then .ok (L.dec "arc4" key [] ct)
    else .error "Incorrect key length"
  | _ => .error ("Unsupported algorithm: " ++ lowerStr algo)

/-- The metadata key string of one layer, the f-string algo_idx with the
algorithm name exactly as it appears in the chain. -/
def keyName (algo : String) (idx : Nat) : List Char :=
  algo.data ++ '_' :: natDigitsChar idx

/-- The codebook of encrypt_data: hash name, the layer list, and the
base64 encoded nonce and tag strings keyed by keyName. -/
structure Codebook where
  hash : String
  layers : List String
  nonces : List (List Char × List Nat)
  tags : List (List Char × List Nat)
deriving DecidableEq

/-- The result dict of encrypt_data. -/
structure EncryptResult where
  encrypted_data : List Nat
  codebook : Codebook
deriving DecidableEq

/-- Record an optional metadata value under a key: base64 encode and
store when present. -/
def optInsert (kn : List Char) (enc64 : List Nat → List Nat) (o : Option (List Nat))
    (d : List (List Char × List Nat)) : List (List Char × List Nat) :=
  match o with
  | some v => dinsert kn (enc64 v) d
  | none => d

/-- The encryption loop of encrypt_data: derive the layer key, encrypt,
record base64 nonce and tag under keyName, feed the ciphertext to the
next layer. -/
def encLayers (L : CryptoLib) (rand : Nat → List Nat) (km : List Nat) (hashName : String) :
    List String → Nat → List Nat → List (List Char × List Nat) →
    List (List Char × List Nat) →
    Except String (List Nat × List (List Char × List Nat) × List (List Char × List Nat))
  | [], _, cur, ns, ts => .ok (cur, ns, ts)
  | algo :: rest, idx, cur, ns, ts =>
    match kdf L km hashName (keySizeFor algo) idx with
    | .error e => .error e
    | .ok key =>
      match encryptLayer L algo key (rand idx) cur with
      | .error e => .error e
      | .ok (ct, nonceOpt, tagOpt) =>
        let kn := keyName algo idx
        encLayers L rand km hashName rest (idx + 1) ct
          (optInsert kn L.b64e nonceOpt ns) (optInsert kn L.b64e tagOpt ts)

/-- encrypt_data: run the layer loop from index 0 with empty metadata
dicts, base64 encode the final ciphertext and return it with the
codebook. rand gives the fresh nonce consumed at each layer index;
password bytes are the already encoded password. -/
def encrypt_data (L : CryptoLib) (rand : Nat → List Nat) (data password : List Nat)
    (encryptionLayers : List String) (hashName : String) : Except String EncryptResult :=
  match encLayers L rand password hashName encryptionLayers 0 data [] [] with
  | .error e => .error e
  | .ok (ct, ns, ts) => .ok ⟨L.b64e ct, ⟨hashName, encryptionLayers, ns, ts⟩⟩

/-- The decryption loop of decrypt_data: iterate the layers in reverse
index order, re-derive each key, look the metadata up by keyName and
invert the layer. -/
def decLayers (L : CryptoLib) (km : List Nat) (hashName : String) :
    List String → Nat → List (List Char × List Nat) → List (List Char × List Nat) →
    List Nat → Except String (List Nat)
  | [], _, _, _, cur => .ok cur
  | algo :: rest, idx, ns, ts, cur =>
    match decLayers L km hashName rest (idx + 1) ns ts cur with
    | .error e => .error e
    | .ok mid =>
      match kdf L km hashName (keySizeFor algo) idx with
      | .error e => .error e
      | .ok key =>
        decryptLayer L algo key mid (dlookup (keyName algo idx) ns)
          (dlookup (keyName algo idx) ts)

/-- decrypt_data. With neither layer list nor codebook it raises a
ValueError. With a layer list but no codebook the source never assigns
the locals layers, nonces_b64 and tags_b64, so the first later use of
nonces_b64 raises an UnboundLocalError (a NameError subclass) before any
base64 decoding or layer decryption happens. Whenever a codebook is
present it wins: layers and hash come from it, its base64 metadata
values are decoded once, and the layers are decrypted in reverse order
over the base64 decoded ciphertext. -/
def decrypt_data (L : CryptoLib) (encryptedData : List Nat) (password : List Nat)
    (hashName : String) (encryptionLayers : Option (List String))
    (codebook : Option Codebook) : Except String (List Nat) :=
  match encryptionLayers, codebook with
  | none, none => .error "Either encryption_layers or codebook must be supplied."
  | some _, none => .error "UnboundLocalError: nonces_b64"
  | _, some cb =>
    decLayers L password cb.hash cb.layers 0 (mapVals L.b64d cb.nonces)
      (mapVals L.b64d cb.tags) (L.b64d encryptedData)

/-- The algorithm names the claim enumerates, lowercase as the chain
passes them. -/
def supportedAlgoNames : List String :=
  ["aes", "des", "des3", "blowfish", "arc2", "cast", "chacha20", "salsa20", "arc4"]

/-- A concrete lawful instantiation of the external libraries used by
the closed witnesses and counterexamples: the cipher core is the
identity (which satisfies the decrypt-inverts-encrypt contract), the tag
is empty, digests are zero bytes of the true native length (sha1 gives
20 bytes, as the real library does), XOF reads give exactly the
requested size, and base64 is the identity pair. -/
def refLib : CryptoLib where
  enc := fun _ _ _ pt => pt
  dec := fun _ _ _ ct => ct
  tag := fun _ _ _ _ => []
  hashDigest := fun h _ => List.replicate h.digestLen 0
  xofRead := fun _ s _ => List.replicate s 0
  b64e := id
  b64d := id

/-- A zero randomness source for the witnesses. -/
def randZero : Nat → List Nat := fun _ => List.replicate 16 0

/-- Value of a little-endian decimal digit string. -/
def valRev : List Char → Nat
  | [] => 0
  | c :: rest => (c.toNat - 48) + 10 * valRev rest

/-- The metadata key names of a chain starting at a given index. -/
def keyRange : List String → Nat → List (List Char)
  | [], _ => []
  | a :: rest, i => keyName a i :: keyRange rest (i + 1)

end Inscrypt



namespace Inscrypt

theorem length_natBitsBE (w n : Nat) : (natBitsBE w n).length = w := by
  induction w generalizing n with
  | zero => rfl
  | succ w ih => simp [natBitsBE, ih]

theorem natBitsBE_lt_two (w n : Nat) : ∀ b ∈ natBitsBE w n, b < 2 := by
  induction w generalizing n with
  | zero => simp [natBitsBE]
  | succ w ih =>
    intro b hb
    simp only [natBitsBE, List.mem_cons] at hb
    rcases hb with rfl | hb
    · exact Nat.mod_lt _ (by omega)
    · exact ih n b hb

theorem length_byteBits (b : Nat) : (byteBits b).length = 8 := length_natBitsBE 8 b

theorem byteBits_lt_two (n : Nat) : ∀ b ∈ byteBits n, b < 2 := natBitsBE_lt_two 8 n

theorem bytesToBits_nil : bytesToBits [] = [] := rfl

theorem bytesToBits_cons (b : Nat) (bs : List Nat) :
    bytesToBits (b :: bs) = byteBits b ++ bytesToBits bs := by
  simp [bytesToBits]

theorem bytesToBits_append (xs ys : List Nat) :
    bytesToBits (xs ++ ys) = bytesToBits xs ++ bytesToBits ys := by
  simp [bytesToBits]

theorem length_bytesToBits (bs : List Nat) :
    (bytesToBits bs).length = 8 * bs.length := by
  induction bs with
  | nil => rfl
  | cons b bs ih =>
    simp [bytesToBits_cons, length_byteBits, ih]
    ring

theorem bytesToBits_lt_two (bs : List Nat) : ∀ b ∈ bytesToBits bs, b < 2 := by
  induction bs with
  | nil => simp [bytesToBits]
  | cons x bs ih =>
    intro b hb
    rw [bytesToBits_cons] at hb
    rcases List.mem_append.1 hb with h | h
    · exact byteBits_lt_two x b h
    · exact ih b h

theorem bitsToNat_foldl_acc (l : List Nat) :
    ∀ a, List.foldl (fun a b => 2 * a + b) a l = a * 2 ^ l.length + bitsToNat l := by
  induction l with
  | nil => intro a; simp [bitsToNat]
  | cons b t ih =>
    intro a
    show List.foldl _ (2 * a + b) t = _
    rw [ih (2 * a + b)]
    have hb : bitsToNat (b :: t) = b * 2 ^ t.length + bitsToNat t := by
      show List.foldl _ (2 * 0 + b) t = _
      rw [ih (2 * 0 + b)]
      ring
    rw [hb]
    simp [List.length_cons, pow_succ]
    ring

theorem bitsToNat_cons (b : Nat) (t : List Nat) :
    bitsToNat (b :: t) = b * 2 ^ t.length + bitsToNat t := by
  show List.foldl _ (2 * 0 + b) t = _
  rw [bitsToNat_foldl_acc t (2 * 0 + b)]
  ring

theorem bitsToNat_append (xs ys : List Nat) :
    bitsToNat (xs ++ ys) = bitsToNat xs * 2 ^ ys.length + bitsToNat ys := by
  show List.foldl _ 0 (xs ++ ys) = _
  rw [List.foldl_append, bitsToNat_foldl_acc ys]
  rfl

theorem mod_pow_split (n a b : Nat) :
    n % 2 ^ (a + b) = (n / 2 ^ a) % 2 ^ b * 2 ^ a + n % 2 ^ a := by
  rw [pow_add, Nat.mod_mul]
  ring

theorem bitsToNat_natBitsBE (w n : Nat) : bitsToNat (natBitsBE w n) = n % 2 ^ w := by
  induction w generalizing n with
  | zero => simp [natBitsBE, bitsToNat, Nat.mod_one]
  | succ w ih =>
    rw [natBitsBE, bitsToNat_cons, length_natBitsBE, ih]
    have := mod_pow_split n w 1
    simpa [pow_one] using this.symm

theorem length_natToBytesBE (w n : Nat) : (natToBytesBE w n).length = w := by
  induction w generalizing n with
  | zero => rfl
  | succ w ih => simp [natToBytesBE, ih]

theorem natToBytesBE_lt (w n : Nat) : ∀ b ∈ natToBytesBE w n, b < 256 := by
  induction w generalizing n with
  | zero => simp [natToBytesBE]
  | succ w ih =>
    intro b hb
    simp only [natToBytesBE, List.mem_cons] at hb
    rcases hb with rfl | hb
    · exact Nat.mod_lt _ (by omega)
    · exact ih n b hb

theorem mod_pow256_split (n a b : Nat) :
    n % 256 ^ (a + b) = (n / 256 ^ a) % 256 ^ b * 256 ^ a + n % 256 ^ a := by
  rw [pow_add, Nat.mod_mul]
  ring

theorem bitsToNat_bytesToBits_natToBytesBE (w n : Nat) :
    bitsToNat (bytesToBits (natToBytesBE w n)) = n % 256 ^ w := by
  induction w generalizing n with
  | zero => simp [natToBytesBE, bytesToBits, bitsToNat, Nat.mod_one]
  | succ w ih =>
    rw [natToBytesBE, bytesToBits_cons, bitsToNat_append, ih, length_bytesToBits,
      length_natToBytesBE]
    have hb : bitsToNat (byteBits (n / 256 ^ w % 256)) = n / 256 ^ w % 256 := by
      rw [byteBits, bitsToNat_natBitsBE]
      exact Nat.mod_mod_of_dvd _ (by norm_num)
    rw [hb]
    have h256 : (256 : Nat) ^ w = 2 ^ (8 * w) := by
      rw [show (256 : Nat) = 2 ^ 8 by norm_num, ← pow_mul]
    have := mod_pow256_split n w 1
    rw [pow_one] at this
    rw [h256] at *
    omega

theorem bitsToBytes_nil : bitsToBytes [] = [] := rfl

theorem bitsToBytes_chunk (l rest : List Nat) (hl : l.length = 8) :
    bitsToBytes (l ++ rest) = bitsToNat l :: bitsToBytes rest := by
  match l, hl with
  | [b1, b2, b3, b4, b5, b6, b7, b8], _ => rfl

theorem bitsToBytes_bytesToBits (bs : List Nat) (hbs : ∀ b ∈ bs, b < 256) :
    bitsToBytes (bytesToBits bs) = bs := by
  induction bs with
  | nil => simp [bytesToBits_nil, bitsToBytes_nil]
  | cons b t ih =>
    rw [bytesToBits_cons, bitsToBytes_chunk _ _ (length_byteBits b)]
    have hb : bitsToNat (byteBits b) = b := by
      rw [byteBits, bitsToNat_natBitsBE]
      exact Nat.mod_eq_of_lt (by simpa using hbs b (List.mem_cons_self b t))
    rw [hb, ih fun x hx => hbs x (List.mem_cons_of_mem b hx)]

end Inscrypt

namespace Inscrypt

/-- C6: the range and marker checks of lsb_extract_image do return empty
bytes without raising (an out-of-range length prefix or a magic-marker
mismatch both yield empty bytes, and a non-empty payload is returned
only when every check passes), but the claim's run-out-of-bits case is
false on the code: on a carrier with fewer than 32 channel values - the
only reachable way to run out of bits - the StopIteration raised inside
the generator expression of read_bits is converted by PEP 479 into a
RuntimeError that escapes the except clause for StopIteration and
ValueError, so lsb_extract_image raises instead of returning empty
bytes, for example on a 1 by 1 RGBA carrier with four zero channel
values. -/
theorem lsb_extract_image_short_carrier_raises (channels : List Nat) :
    (channels.length < 32 →
      lsbExtractImage channels = .error "RuntimeError: generator raised StopIteration") ∧
    (32 ≤ channels.length →
      ¬(0 < imgDeclaredLen channels ∧
          imgDeclaredLen channels ≤ (channels.length - 32) / 8) →
      lsbExtractImage channels = .ok []) ∧
    (32 ≤ channels.length →
      (imgCandidate channels).take stegoMagic.length ≠ stegoMagic →
      lsbExtractImage channels = .ok []) ∧
    (∀ payload, lsbExtractImage channels = .ok payload → payload ≠ [] →
      32 ≤ channels.length ∧
      0 < imgDeclaredLen channels ∧
      imgDeclaredLen channels ≤ (channels.length - 32) / 8 ∧
      (imgCandidate channels).take stegoMagic.length = stegoMagic) := by
  unfold lsbExtractImage
  by_cases h1 : channels.length < 32
  · rw [if_pos h1]
    exact ⟨fun _ => rfl, fun h32 _ => absurd h1 (not_lt.mpr h32),
      fun h32 _ => absurd h1 (not_lt.mpr h32),
      fun payload hp _ => Except.noConfusion hp⟩
  · rw [if_neg h1]
    by_cases h2 : 0 < imgDeclaredLen channels ∧
        imgDeclaredLen channels ≤ (channels.length - 32) / 8
    · by_cases h3 : (imgCandidate channels).take stegoMagic.length = stegoMagic
      · rw [if_pos h2, if_pos h3]
        exact ⟨fun hlt => absurd hlt h1, fun _ hr => absurd h2 hr,
          fun _ hm => absurd h3 hm, fun _ _ _ => ⟨not_lt.mp h1, h2.1, h2.2, h3⟩⟩
      · rw [if_pos h2, if_neg h3]
        exact ⟨fun hlt => absurd hlt h1, fun _ hr => absurd h2 hr, fun _ _ => rfl,
          fun payload hp hne => absurd (Except.ok.inj hp).symm hne⟩
    · rw [if_neg h2]
      exact ⟨fun hlt => absurd hlt h1, fun _ _ => rfl, fun _ _ => rfl,
        fun payload hp hne => absurd (Except.ok.inj hp).symm hne⟩

/-- Witness for the C6 theorem at the failing input, a 1 by 1 RGBA
carrier of four zero channel values: extraction raises the uncaught
RuntimeError rather than returning empty bytes. -/
theorem lsb_extract_image_short_carrier_raises_witness :
    lsbExtractImage [0, 0, 0, 0] =
      .error "RuntimeError: generator raised StopIteration" :=
  (lsb_extract_image_short_carrier_raises [0, 0, 0, 0]).1 (by decide)

/-- C5 counterexample: on a one-pixel RGBA carrier with all channel
values 1 and an empty message, lsb_embed_image raises the capacity error,
but only after its pixel loop has already overwritten the LSB of every
channel value, so the in-memory carrier is changed from [1,1,1,1] to
[0,0,0,0]. -/
theorem lsb_embed_image_mutates_before_error :
    lsbEmbedImageRun [1, 1, 1, 1] [] =
      ([0, 0, 0, 0], some "Image too small for LSB payload") ∧
    ([0, 0, 0, 0] : List Nat) ≠ [1, 1, 1, 1] := by
  constructor
  · decide
  · decide

/-- C5 amended: whenever the wrapped frame has more bits than the carrier
has channel values, lsb_embed_image raises the capacity error and never
saves a stego image, but the error fires only after the pixel loop, so
the in-memory pixel buffer has the LSBs of all its channel values
overwritten with the leading frame bits; the on-disk carrier file is
untouched because saving is unreachable. -/
theorem lsb_embed_image_capacity_error (channels message : List Nat)
    (h : channels.length < (frameBitsV1 message).length) :
    lsbEmbedImage channels message = .error "Image too small for LSB payload" ∧
    (lsbEmbedImageRun channels message).1 = setLsbs (frameBitsV1 message) channels := by
  constructor
  · unfold lsbEmbedImage lsbEmbedImageRun
    simp only [if_pos h]
  · rfl

/-- Witness for the C5 amended theorem at the one-pixel RGBA carrier. -/
theorem lsb_embed_image_capacity_error_witness :
    lsbEmbedImage [1, 1, 1, 1] [] = .error "Image too small for LSB payload" ∧
    (lsbEmbedImageRun [1, 1, 1, 1] []).1 = setLsbs (frameBitsV1 []) [1, 1, 1, 1] :=
  lsb_embed_image_capacity_error [1, 1, 1, 1] [] (by decide)

/-- C4: embedding the single byte 171 into a 10-pixel RGBA carrier (40
channel values, exactly enough for the 32-bit prefix plus 8 payload
bits) and extracting again returns the byte 0, not 171: the extraction
loop collects payload bits from flattened position 0 (re-reading the
length prefix) instead of position 32. -/
theorem svc_extract_reads_from_position_zero :
    ∃ st, svcEmbed (List.replicate 40 255) [171] = .ok st ∧
      svcExtract st none = .ok [0] :=
  ⟨setLsbs (natBitsBE 32 8 ++ bytesToBits [171]) (List.replicate 40 255),
    by rfl, by rfl⟩

/-- C2: whenever _video_mv_embed succeeds it returns the frames read by
its loop completely unchanged (every frame after the first, the first
being consumed as the initial previous frame): no motion-vector sign is
ever flipped and no payload bit is encoded into the output video. -/
theorem mv_embed_returns_frames_unchanged {α : Type} (track : Nat → Bool)
    (frames : List α) (message : List Nat) (out : List α)
    (h : mvEmbed track frames message = .ok out) : out = frames.drop 1 := by
  match frames with
  | [] => simp [mvEmbed] at h
  | f :: rest =>
    unfold mvEmbed at h
    by_cases hg : ((List.range rest.length).filter fun i => track i).length <
        8 * message.length + 8
    · simp [hg] at h
    · simp [hg] at h
      simpa [List.drop] using h.symm

/-- Witness for the C2 theorem: an 18-frame video in which every pair
tracks successfully and an empty message (8 terminator bits). -/
theorem mv_embed_returns_frames_unchanged_witness :
    ∃ out, mvEmbed (fun _ => true) (List.range 18) ([] : List Nat) = .ok out ∧
      out = (List.range 18).drop 1 :=
  ⟨(List.range 18).drop 1, by rfl,
    mv_embed_returns_frames_unchanged (fun _ => true) (List.range 18) [] _ (by rfl)⟩

end Inscrypt

namespace Inscrypt

theorem ratTrunc_intCast (v : ℤ) : ratTrunc (v : ℚ) = v := by
  unfold ratTrunc
  split_ifs <;> simp

theorem wrap16_eq_self (z : ℤ) (h1 : -32768 ≤ z) (h2 : z ≤ 32767) : wrap16 z = z := by
  unfold wrap16
  omega

theorem ratTrunc_bounds (q : ℚ) (a b : ℤ) (ha : (a : ℚ) ≤ q) (hb : q ≤ (b : ℚ)) :
    a ≤ ratTrunc q ∧ ratTrunc q ≤ b := by
  unfold ratTrunc
  split_ifs with h
  · refine ⟨Int.le_floor.mpr ha, ?_⟩
    have := Int.floor_le_floor hb
    simpa using this
  · refine ⟨?_, Int.ceil_le.mpr hb⟩
    have := Int.ceil_le_ceil ha
    simpa using this

theorem audioEmbedQuant_bounds (s : ℚ) :
    -32767 ≤ audioEmbedQuant s ∧ audioEmbedQuant s ≤ 32767 := by
  unfold audioEmbedQuant
  have hc1 : (-1 : ℚ) ≤ max (-1) (min 1 s) := le_max_left _ _
  have hc2 : max (-1) (min 1 s) ≤ 1 := max_le (by norm_num) (min_le_left _ _)
  have hm1 : ((-32767 : ℤ) : ℚ) ≤ max (-1) (min 1 s) * 32767 := by
    push_cast
    nlinarith
  have hm2 : max (-1) (min 1 s) * 32767 ≤ ((32767 : ℤ) : ℚ) := by
    push_cast
    nlinarith
  have hb := ratTrunc_bounds _ _ _ hm1 hm2
  rw [wrap16_eq_self _ (by omega) (by omega)]
  omega

theorem audioExtractQuant_toFloat (v : ℤ) (h1 : -32768 ≤ v) (h2 : v ≤ 32767) :
    audioExtractQuant (audioToFloat v) = v := by
  unfold audioExtractQuant audioToFloat
  rw [div_mul_cancel₀ _ (by norm_num : (32768 : ℚ) ≠ 0), ratTrunc_intCast,
    wrap16_eq_self _ h1 h2]

theorem lsbZ_putBitZ (v : ℤ) (b : Nat) (hb : b < 2) : lsbZ (putBitZ v b) = b := by
  unfold lsbZ putBitZ
  omega

theorem putBitZ_bounds (v : ℤ) (b : Nat) (hb : b < 2) (h1 : -32767 ≤ v) (h2 : v ≤ 32767) :
    -32768 ≤ putBitZ v b ∧ putBitZ v b ≤ 32767 := by
  unfold putBitZ
  omega

theorem setLsbsZ_length : ∀ (bs : List Nat) (cs : List ℤ), (setLsbsZ bs cs).length = cs.length
  | _, [] => by cases ‹List Nat› <;> rfl
  | [], _ :: cs => by simp [setLsbsZ]
  | b :: bs, c :: cs => by simp [setLsbsZ, setLsbsZ_length bs cs]

theorem setLsbsZ_bounds : ∀ (bs : List Nat) (cs : List ℤ), (∀ b ∈ bs, b < 2) →
    (∀ c ∈ cs, -32767 ≤ c ∧ c ≤ 32767) →
    ∀ x ∈ setLsbsZ bs cs, -32768 ≤ x ∧ x ≤ 32767 := by
  intro bs cs
  induction cs generalizing bs with
  | nil => intro _ _ x hx; cases bs <;> simp [setLsbsZ] at hx
  | cons c cs ih =>
    intro hbs hcs x hx
    match bs with
    | [] =>
      simp only [setLsbsZ] at hx
      have := hcs x hx
      omega
    | b :: bs =>
      simp only [setLsbsZ, List.mem_cons] at hx
      rcases hx with rfl | hx
      · exact putBitZ_bounds c b (hbs b (by simp)) (hcs c (by simp)).1 (hcs c (by simp)).2
      · exact ih bs (fun y hy => hbs y (by simp [hy])) (fun y hy => hcs y (by simp [hy])) x hx

theorem setLsbsZ_map_lsb : ∀ (bs : List Nat) (cs : List ℤ), (∀ b ∈ bs, b < 2) →
    bs.length ≤ cs.length →
    (setLsbsZ bs cs).map lsbZ = bs ++ (cs.drop bs.length).map lsbZ := by
  intro bs
  induction bs with
  | nil => intro cs _ _; cases cs <;> simp [setLsbsZ]
  | cons b bs ih =>
    intro cs hbs hle
    match cs with
    | [] => simp at hle
    | c :: cs =>
      simp only [setLsbsZ, List.map_cons, List.length_cons, List.drop_succ_cons]
      rw [lsbZ_putBitZ c b (hbs b (by simp)), ih cs (fun y hy => hbs y (by simp [hy]))
        (by simpa using hle)]
      rfl

theorem stegoMagic_bytes_lt : ∀ b ∈ stegoMagic, b < 256 := by decide

theorem frameV1_bytes_lt (message : List Nat) (hm : ∀ b ∈ message, b < 256) :
    ∀ b ∈ frameV1 message, b < 256 := by
  intro b hb
  unfold frameV1 at hb
  rcases List.mem_append.1 hb with h | h
  · exact natToBytesBE_lt _ _ b h
  · rcases List.mem_append.1 h with h2 | h2
    · exact stegoMagic_bytes_lt b h2
    · exact hm b h2

theorem length_frameV1 (message : List Nat) :
    (frameV1 message).length = 4 + (stegoMagic ++ message).length := by
  unfold frameV1
  simp [length_natToBytesBE]

theorem length_frameBitsV1 (message : List Nat) :
    (frameBitsV1 message).length = 32 + 8 * (stegoMagic ++ message).length := by
  unfold frameBitsV1
  rw [length_bytesToBits, length_frameV1]
  ring

end Inscrypt

namespace Inscrypt

theorem audio_parse_frame (message : List Nat) (I : List ℤ)
    (hm : ∀ b ∈ message, b < 256)
    (hlen : (stegoMagic ++ message).length < 2 ^ 32)
    (hcap : (frameBitsV1 message).length ≤ I.length) :
    lsbExtractAudioInt (setLsbsZ (frameBitsV1 message) I) = message := by
  set L := (stegoMagic ++ message).length with hL
  set B := frameBitsV1 message with hB
  set S := setLsbsZ B I with hS
  have hBlt : ∀ b ∈ B, b < 2 := bytesToBits_lt_two _
  have hlenB : B.length = 32 + 8 * L := length_frameBitsV1 message
  have hSlen : S.length = I.length := setLsbsZ_length B I
  have hmap : S.map lsbZ = B ++ (I.drop B.length).map lsbZ :=
    setLsbsZ_map_lsb B I hBlt hcap
  have hBsplit : B = bytesToBits (natToBytesBE 4 L) ++ bytesToBits (stegoMagic ++ message) := by
    rw [hB, frameBitsV1, frameV1, bytesToBits_append]
  have hpfxlen : (bytesToBits (natToBytesBE 4 L)).length = 32 := by
    rw [length_bytesToBits, length_natToBytesBE]
  have hbodylen : (bytesToBits (stegoMagic ++ message)).length = 8 * L := by
    rw [length_bytesToBits, hL]
  have hL14 : L = 14 + message.length := by
    rw [hL, List.length_append]
    rfl
  have hdecl : audioDeclaredLen S = L := by
    rw [audioDeclaredLen, List.map_take, hmap,
      List.take_append_of_le_length (by omega : (32 : Nat) ≤ B.length), hBsplit,
      List.take_append_of_le_length (le_of_eq hpfxlen.symm), ← hpfxlen, List.take_length,
      bitsToNat_bytesToBits_natToBytesBE]
    exact Nat.mod_eq_of_lt (by norm_num at hlen ⊢; exact hlen)
  have h32 : ¬ S.length < 32 := by omega
  have hpos : 0 < L := by omega
  have hrange : L ≤ (S.length - 32) / 8 := by
    rw [Nat.le_div_iff_mul_le (by norm_num)]
    omega
  have hfits : ¬ S.length < 32 + L * 8 := by omega
  have hcand : audioCandidate S = stegoMagic ++ message := by
    rw [audioCandidate, hdecl, List.map_take, List.map_drop, hmap,
      List.drop_append_of_le_length (by omega : (32 : Nat) ≤ B.length), hBsplit,
      ← hpfxlen, List.drop_left,
      List.take_append_of_le_length (by omega : L * 8 ≤ (bytesToBits (stegoMagic ++ message)).length),
      show L * 8 = (bytesToBits (stegoMagic ++ message)).length by omega, List.take_length]
    refine bitsToBytes_bytesToBits _ ?_
    intro b hb
    rcases List.mem_append.1 hb with h | h
    · exact stegoMagic_bytes_lt b h
    · exact hm b h
  have hmagic : (audioCandidate S).take stegoMagic.length = stegoMagic := by
    rw [hcand]
    exact List.take_left _ _
  rw [lsbExtractAudioInt, if_neg h32, hdecl, if_pos ⟨hpos, hrange⟩, if_neg hfits,
    if_pos hmagic, hcand, List.drop_left]

/-- C3 amended: _lsb_embed quantizes with the 32767 factor after
clipping, while the save path of hide_message_in_audio divides by 32768
and _lsb_extract multiplies by 32768 - the latter two are the matched
pair of constants, so for every in-memory float sample buffer and every
message that fits the capacity, extraction after the save-path
conversion (which the PCM_16 write / float32 read cycle preserves
exactly) returns the embedded message unchanged, including at samples
near full scale. -/
theorem audio_lsb_roundtrip_via_save_path (samples : List ℚ) (message : List Nat)
    (hm : ∀ b ∈ message, b < 256)
    (hlen : (stegoMagic ++ message).length < 2 ^ 32)
    (stego : List ℤ)
    (henc : lsbEmbedAudio samples message = .ok stego) :
    lsbExtractAudio (stego.map audioToFloat) = message := by
  unfold lsbEmbedAudio at henc
  by_cases hcap : (samples.map audioEmbedQuant).length < (frameBitsV1 message).length
  · rw [if_pos hcap] at henc
    cases henc
  · rw [if_neg hcap] at henc
    have hstego : setLsbsZ (frameBitsV1 message) (samples.map audioEmbedQuant) = stego :=
      Except.ok.inj henc
    subst hstego
    have hIb : ∀ c ∈ samples.map audioEmbedQuant, -32767 ≤ c ∧ c ≤ 32767 := by
      intro c hc
      rcases List.mem_map.1 hc with ⟨t, _, rfl⟩
      exact audioEmbedQuant_bounds t
    have hSb : ∀ x ∈ setLsbsZ (frameBitsV1 message) (samples.map audioEmbedQuant),
        -32768 ≤ x ∧ x ≤ 32767 :=
      setLsbsZ_bounds (frameBitsV1 message) (samples.map audioEmbedQuant)
        (bytesToBits_lt_two (frameV1 message)) hIb
    have hrq : ((setLsbsZ (frameBitsV1 message) (samples.map audioEmbedQuant)).map
        audioToFloat).map audioExtractQuant
        = setLsbsZ (frameBitsV1 message) (samples.map audioEmbedQuant) := by
      rw [List.map_map]
      have hpt : ∀ x ∈ setLsbsZ (frameBitsV1 message) (samples.map audioEmbedQuant),
          (audioExtractQuant ∘ audioToFloat) x = id x := fun x hx =>
        audioExtractQuant_toFloat x (hSb x hx).1 (hSb x hx).2
      rw [List.map_congr_left hpt, List.map_id]
    unfold lsbExtractAudio
    rw [hrq]
    exact audio_parse_frame message _ hm hlen (not_lt.mp hcap)

theorem audioEmbedQuant_half : audioEmbedQuant (1 / 2 : ℚ) = 16383 := by
  unfold audioEmbedQuant
  rw [min_eq_right (by norm_num : (1 / 2 : ℚ) ≤ 1),
    max_eq_right (by norm_num : (-1 : ℚ) ≤ 1 / 2),
    show (1 / 2 : ℚ) * 32767 = 32767 / 2 by norm_num]
  unfold ratTrunc
  rw [if_pos (by norm_num : (0 : ℚ) ≤ 32767 / 2),
    show ⌊(32767 / 2 : ℚ)⌋ = 16383 by rw [Int.floor_eq_iff] <;> norm_num]
  decide

/-- Witness for the C3 amended theorem: 152 half-scale samples carrying
the single byte 65. -/
theorem audio_lsb_roundtrip_via_save_path_witness :
    ∃ stego, lsbEmbedAudio (List.replicate 152 (1 / 2 : ℚ)) [65] = .ok stego ∧
      lsbExtractAudio (stego.map audioToFloat) = [65] := by
  have hmapeq : (List.replicate 152 (1 / 2 : ℚ)).map audioEmbedQuant =
      List.replicate 152 (16383 : ℤ) := by
    rw [List.map_replicate, audioEmbedQuant_half]
  have henc : lsbEmbedAudio (List.replicate 152 (1 / 2 : ℚ)) [65] =
      .ok (setLsbsZ (frameBitsV1 [65]) (List.replicate 152 (16383 : ℤ))) := by
    unfold lsbEmbedAudio
    rw [hmapeq, if_neg (by decide)]
  exact ⟨_, henc,
    audio_lsb_roundtrip_via_save_path _ _ (by decide) (by decide) _ henc⟩

/-- C3 counterexample: at the in-memory sample 32767/32768 (one LSB step
below full scale) the float-to-int16 map of _lsb_embed (clip then scale
by 32767) gives 32766 while the float-to-int16 map of _lsb_extract
(scale by 32768) gives 32767, so the two directions do not use the same
scale constant and even disagree on the lowest bit at this sample. -/
theorem audio_scale_constants_differ :
    audioEmbedQuant (32767 / 32768) = 32766 ∧
    audioExtractQuant (32767 / 32768) = 32767 ∧
    audioEmbedQuant (32767 / 32768) ≠ audioExtractQuant (32767 / 32768) := by
  have h1 : audioEmbedQuant (32767 / 32768) = 32766 := by
    unfold audioEmbedQuant
    rw [min_eq_right (by norm_num : (32767 / 32768 : ℚ) ≤ 1),
      max_eq_right (by norm_num : (-1 : ℚ) ≤ 32767 / 32768),
      show (32767 / 32768 : ℚ) * 32767 = 1073676289 / 32768 by norm_num]
    unfold ratTrunc
    rw [if_pos (by norm_num : (0 : ℚ) ≤ 1073676289 / 32768),
      show ⌊(1073676289 / 32768 : ℚ)⌋ = 32766 by rw [Int.floor_eq_iff] <;> norm_num]
    decide
  have h2 : audioExtractQuant (32767 / 32768) = 32767 := by
    unfold audioExtractQuant
    rw [show (32767 / 32768 : ℚ) * 32768 = 32767 by norm_num]
    unfold ratTrunc
    rw [if_pos (by norm_num : (0 : ℚ) ≤ 32767),
      show ⌊(32767 : ℚ)⌋ = 32767 by rw [Int.floor_eq_iff] <;> norm_num]
    decide
  exact ⟨h1, h2, by rw [h1, h2]; decide⟩

end Inscrypt

namespace Inscrypt

theorem layer_roundtrip (L : CryptoLib)
    (hdec : ∀ a k n pt, L.dec a k n (L.enc a k n pt) = pt)
    (a : String) (ha : a ∈ supportedAlgoNames) (key nonce cur : List Nat)
    (hkl : key.length = keySizeFor a) :
    ∃ ct nOpt tOpt, encryptLayer L a key nonce cur = .ok (ct, nOpt, tOpt) ∧
      ∀ n2 t2, (n2 = nOpt ∨ nOpt = none) → (t2 = tOpt ∨ tOpt = none) →
        decryptLayer L a key ct n2 t2 = .ok cur := by
  have hsup : a = "aes" ∨ a = "des" ∨ a = "des3" ∨ a = "blowfish" ∨ a = "arc2" ∨
      a = "cast" ∨ a = "chacha20" ∨ a = "salsa20" ∨ a = "arc4" := by
    simpa [supportedAlgoNames] using ha
  rcases hsup with rfl | rfl | rfl | rfl | rfl | rfl | rfl | rfl | rfl
  · rw [show keySizeFor "aes" = 16 from rfl] at hkl
    refine ⟨L.enc "aes" key nonce cur, some nonce,
      some (L.tag "aes" key nonce (L.enc "aes" key nonce cur)),
      by simp [encryptLayer, hkl, keyLenOk, lowerStr, lowerChar], ?_⟩
    rintro n2 t2 (rfl | hn) (rfl | ht)
    · simp [decryptLayer, hkl, keyLenOk, lowerStr, lowerChar, hdec]
    · simp at ht
    · simp at hn
    · simp at hn
  · rw [show keySizeFor "des" = 8 from rfl] at hkl
    refine ⟨L.enc "des" key nonce cur, some nonce,
      some (L.tag "des" key nonce (L.enc "des" key nonce cur)),
      by simp [encryptLayer, hkl, keyLenOk, lowerStr, lowerChar], ?_⟩
    rintro n2 t2 (rfl | hn) (rfl | ht)
    · simp [decryptLayer, hkl, keyLenOk, lowerStr, lowerChar, hdec]
    · simp at ht
    · simp at hn
    · simp at hn
  · rw [show keySizeFor "des3" = 16 from rfl] at hkl
    refine ⟨L.enc "des3" key nonce cur, some nonce,
      some (L.tag "des3" key nonce (L.enc "des3" key nonce cur)),
      by simp [encryptLayer, hkl, keyLenOk, lowerStr, lowerChar], ?_⟩
    rintro n2 t2 (rfl | hn) (rfl | ht)
    · simp [decryptLayer, hkl, keyLenOk, lowerStr, lowerChar, hdec]
    · simp at ht
    · simp at hn
    · simp at hn
  · rw [show keySizeFor "blowfish" = 16 from rfl] at hkl
    refine ⟨L.enc "blowfish" key nonce cur, some nonce,
      some (L.tag "blowfish" key nonce (L.enc "blowfish" key nonce cur)),
      by simp [encryptLayer, hkl, keyLenOk, lowerStr, lowerChar], ?_⟩
    rintro n2 t2 (rfl | hn) (rfl | ht)
    · simp [decryptLayer, hkl, keyLenOk, lowerStr, lowerChar, hdec]
    · simp at ht
    · simp at hn
    · simp at hn
  · rw [show keySizeFor "arc2" = 16 from rfl] at hkl
    refine ⟨L.enc "arc2" key nonce cur, some nonce,
      some (L.tag "arc2" key nonce (L.enc "arc2" key nonce cur)),
      by simp [encryptLayer, hkl, keyLenOk, lowerStr, lowerChar], ?_⟩
    rintro n2 t2 (rfl | hn) (rfl | ht)
    · simp [decryptLayer, hkl, keyLenOk, lowerStr, lowerChar, hdec]
    · simp at ht
    · simp at hn
    · simp at hn
  · rw [show keySizeFor "cast" = 16 from rfl] at hkl
    refine ⟨L.enc "cast" key nonce cur, some nonce,
      some (L.tag "cast" key nonce (L.enc "cast" key nonce cur)),
      by simp [encryptLayer, hkl, keyLenOk, lowerStr, lowerChar], ?_⟩
    rintro n2 t2 (rfl | hn) (rfl | ht)
    · simp [decryptLayer, hkl, keyLenOk, lowerStr, lowerChar, hdec]
    · simp at ht
    · simp at hn
    · simp at hn
  · rw [show keySizeFor "chacha20" = 32 from rfl] at hkl
    refine ⟨L.enc "chacha20" key nonce cur, some nonce, none,
      by simp [encryptLayer, hkl, keyLenOk, lowerStr, lowerChar], ?_⟩
    rintro n2 t2 (rfl | hn) _
    · simp [decryptLayer, hkl, keyLenOk, lowerStr, lowerChar, hdec]
    · simp at hn
  · rw [show keySizeFor "salsa20" = 32 from rfl] at hkl
    refine ⟨L.enc "salsa20" key nonce cur, some nonce, none,
      by simp [encryptLayer, hkl, keyLenOk, lowerStr, lowerChar], ?_⟩
    rintro n2 t2 (rfl | hn) _
    · simp [decryptLayer, hkl, keyLenOk, lowerStr, lowerChar, hdec]
    · simp at hn
  · rw [show keySizeFor "arc4" = 16 from rfl] at hkl
    refine ⟨L.enc "arc4" key [] cur, none, none,
      by simp [encryptLayer, hkl, keyLenOk, lowerStr, lowerChar], ?_⟩
    rintro n2 t2 _ _
    simp [decryptLayer, hkl, keyLenOk, lowerStr, lowerChar, hdec]

end Inscrypt

namespace Inscrypt

theorem charOfNat_toNat_digit (k : Nat) (h48 : 48 ≤ k) (h57 : k ≤ 57) :
    (Char.ofNat k).toNat = k := by
  interval_cases k <;> decide

theorem char_eq_of_toNat_eq {a b : Char} (h : a.toNat = b.toNat) : a = b :=
  Char.eq_of_val_eq (UInt32.ext h)

theorem decSuccRev_digits (l : List Char) (h : ∀ c ∈ l, 48 ≤ c.toNat ∧ c.toNat ≤ 57) :
    ∀ c ∈ decSuccRev l, 48 ≤ c.toNat ∧ c.toNat ≤ 57 := by
  induction l with
  | nil =>
    intro c hc
    simp only [decSuccRev, List.mem_singleton] at hc
    subst hc
    decide
  | cons a rest ih =>
    intro c hc
    by_cases ha : a = '9'
    · rw [decSuccRev, if_pos ha] at hc
      rcases List.mem_cons.1 hc with rfl | hc
      · decide
      · exact ih (fun x hx => h x (List.mem_cons_of_mem a hx)) c hc
    · rw [decSuccRev, if_neg ha] at hc
      rcases List.mem_cons.1 hc with rfl | hc
      · have hb := h a (List.mem_cons_self a rest)
        have h9 : a.toNat ≠ 57 := fun he => ha (char_eq_of_toNat_eq (by rw [he]; rfl))
        rw [charOfNat_toNat_digit (a.toNat + 1) (by omega) (by omega)]
        omega
      · exact h c (List.mem_cons_of_mem a hc)

theorem natDigitsRev_digits (n : Nat) : ∀ c ∈ natDigitsRev n, 48 ≤ c.toNat ∧ c.toNat ≤ 57 := by
  induction n with
  | zero =>
    intro c hc
    simp only [natDigitsRev, List.mem_singleton] at hc
    subst hc
    decide
  | succ n ih => exact decSuccRev_digits _ ih

theorem valRev_decSuccRev (l : List Char) (h : ∀ c ∈ l, 48 ≤ c.toNat ∧ c.toNat ≤ 57) :
    valRev (decSuccRev l) = valRev l + 1 := by
  induction l with
  | nil => decide
  | cons a rest ih =>
    by_cases ha : a = '9'
    · subst ha
      rw [decSuccRev, if_pos rfl]
      show (_ - 48) + 10 * valRev (decSuccRev rest) = _
      rw [ih (fun x hx => h x (List.mem_cons_of_mem _ hx))]
      show 0 + 10 * (valRev rest + 1) = (57 - 48) + 10 * valRev rest + 1
      omega
    · rw [decSuccRev, if_neg ha]
      have hb := h a (List.mem_cons_self a rest)
      show (Char.ofNat (a.toNat + 1)).toNat - 48 + 10 * valRev rest = _
      rw [charOfNat_toNat_digit (a.toNat + 1) (by omega)
        (by
          have h9 : a.toNat ≠ 57 := fun he => ha (char_eq_of_toNat_eq (by rw [he]; rfl))
          omega)]
      show _ = (a.toNat - 48) + 10 * valRev rest + 1
      omega

theorem valRev_natDigitsRev (n : Nat) : valRev (natDigitsRev n) = n := by
  induction n with
  | zero => decide
  | succ n ih =>
    rw [natDigitsRev, valRev_decSuccRev _ (natDigitsRev_digits n), ih]

theorem natDigitsChar_inj {i j : Nat} (h : natDigitsChar i = natDigitsChar j) : i = j := by
  have hr : natDigitsRev i = natDigitsRev j := by
    have := congrArg List.reverse h
    simpa [natDigitsChar] using this
  have := congrArg valRev hr
  rwa [valRev_natDigitsRev, valRev_natDigitsRev] at this

theorem underscore_not_mem_natDigitsChar (n : Nat) : '_' ∉ natDigitsChar n := by
  intro hmem
  have hd := natDigitsRev_digits n '_' (by simpa [natDigitsChar] using hmem)
  have : ('_' : Char).toNat = 95 := by decide
  omega

theorem append_underscore_inj : ∀ (A B X Y : List Char), '_' ∉ A → '_' ∉ B →
    A ++ '_' :: X = B ++ '_' :: Y → A = B ∧ X = Y := by
  intro A
  induction A with
  | nil =>
    intro B X Y _ hB h
    match B, h with
    | [], h => simpa using h
    | b :: B2, h =>
      simp only [List.nil_append, List.cons_append, List.cons.injEq] at h
      exact absurd (h.1 ▸ List.mem_cons_self b B2) hB
  | cons a A2 ih =>
    intro B X Y hA hB h
    match B, h with
    | [], h =>
      simp only [List.cons_append, List.nil_append, List.cons.injEq] at h
      exact absurd (h.1 ▸ List.mem_cons_self a A2) hA
    | b :: B2, h =>
      simp only [List.cons_append, List.cons.injEq] at h
      obtain ⟨rfl, h2⟩ := h
      obtain ⟨hAB, hXY⟩ := ih B2 X Y (fun hx => hA (List.mem_cons_of_mem a hx))
        (fun hx => hB (List.mem_cons_of_mem a hx)) h2
      exact ⟨by rw [hAB], hXY⟩

theorem keyName_inj {a b : String} {i j : Nat} (ha : '_' ∉ a.data) (hb : '_' ∉ b.data)
    (h : keyName a i = keyName b j) : a = b ∧ i = j := by
  obtain ⟨h1, h2⟩ := append_underscore_inj a.data b.data (natDigitsChar i)
    (natDigitsChar j) ha hb h
  exact ⟨String.ext h1, natDigitsChar_inj h2⟩

theorem supported_no_underscore : ∀ a ∈ supportedAlgoNames, '_' ∉ a.data := by decide

end Inscrypt

namespace Inscrypt

theorem dlookup_dinsert_self {κ α : Type} [DecidableEq κ] (k : κ) (v : α)
    (d : List (κ × α)) : dlookup k (dinsert k v d) = some v := by
  induction d with
  | nil => simp [dinsert, dlookup]
  | cons p rest ih =>
    obtain ⟨k2, v2⟩ := p
    by_cases hk : k = k2
    · rw [dinsert, if_pos hk, dlookup, if_pos rfl]
    · rw [dinsert, if_neg hk, dlookup, if_neg hk]
      exact ih

theorem dlookup_dinsert_ne {κ α : Type} [DecidableEq κ] {k k2 : κ} (v : α)
    (d : List (κ × α)) (hne : k ≠ k2) : dlookup k (dinsert k2 v d) = dlookup k d := by
  induction d with
  | nil => simp [dinsert, dlookup, hne]
  | cons p rest ih =>
    obtain ⟨k3, v3⟩ := p
    by_cases hk : k2 = k3
    · subst hk
      rw [dinsert, if_pos rfl, dlookup, if_neg hne, dlookup, if_neg hne]
    · rw [dinsert, if_neg hk, dlookup, dlookup]
      by_cases hk3 : k = k3
      · rw [if_pos hk3, if_pos hk3]
      · rw [if_neg hk3, if_neg hk3]
        exact ih

theorem dlookup_mapVals {κ α β : Type} [DecidableEq κ] (f : α → β) (k : κ)
    (d : List (κ × α)) : dlookup k (mapVals f d) = (dlookup k d).map f := by
  induction d with
  | nil => simp [mapVals, dlookup]
  | cons p rest ih =>
    obtain ⟨k2, v⟩ := p
    by_cases hk : k = k2
    · simp [mapVals, dlookup, hk]
    · simp only [mapVals, List.map_cons, dlookup, if_neg hk]
      exact ih

theorem keyName_ne_of_idx_ne {a b : String} {i j : Nat} (ha : '_' ∉ a.data)
    (hb : '_' ∉ b.data) (hij : i ≠ j) : keyName a i ≠ keyName b j := fun h =>
  hij (keyName_inj ha hb h).2

theorem keyName_not_mem_keyRange : ∀ (rest : List String) (j : Nat) (a : String) (i : Nat),
    '_' ∉ a.data → (∀ b ∈ rest, '_' ∉ b.data) → i < j →
    keyName a i ∉ keyRange rest j := by
  intro rest
  induction rest with
  | nil => intro j a i _ _ _ h; simp [keyRange] at h
  | cons b rest ih =>
    intro j a i ha hrest hij h
    rcases List.mem_cons.1 h with he | hmem
    · exact keyName_ne_of_idx_ne ha (hrest b (List.mem_cons_self b rest)) (by omega) he
    · exact ih (j + 1) a i ha (fun x hx => hrest x (List.mem_cons_of_mem b hx))
        (by omega) hmem

theorem encLayers_preserves (L : CryptoLib) (rand : Nat → List Nat) (km : List Nat)
    (hn : String) : ∀ (chain : List String) (idx : Nat) (cur : List Nat)
    (ns ts : List (List Char × List Nat)) (ct : List Nat)
    (ns2 ts2 : List (List Char × List Nat)),
    encLayers L rand km hn chain idx cur ns ts = .ok (ct, ns2, ts2) →
    ∀ k, k ∉ keyRange chain idx →
      dlookup k ns2 = dlookup k ns ∧ dlookup k ts2 = dlookup k ts := by
  intro chain
  induction chain with
  | nil =>
    intro idx cur ns ts ct ns2 ts2 h k _
    rw [encLayers] at h
    cases h
    exact ⟨rfl, rfl⟩
  | cons algo rest ih =>
    intro idx cur ns ts ct ns2 ts2 h k hk
    rw [encLayers] at h
    have hk1 : k ≠ keyName algo idx := by
      intro he
      exact hk (he ▸ List.mem_cons_self _ _)
    have hk2 : k ∉ keyRange rest (idx + 1) := fun hm => hk (List.mem_cons_of_mem _ hm)
    match hkdf : kdf L km hn (keySizeFor algo) idx with
    | .error e =>
      rw [hkdf] at h
      dsimp only at h
      exact Except.noConfusion h
    | .ok key =>
      rw [hkdf] at h
      dsimp only at h
      match henc : encryptLayer L algo key (rand idx) cur with
      | .error e =>
        rw [henc] at h
        dsimp only at h
        exact Except.noConfusion h
      | .ok (ct1, nOpt, tOpt) =>
        rw [henc] at h
        dsimp only at h
        have hrec := ih (idx + 1) ct1 _ _ ct ns2 ts2 h k hk2
        refine ⟨hrec.1.trans ?_, hrec.2.trans ?_⟩
        · cases nOpt with
          | none => rfl
          | some nn => exact dlookup_dinsert_ne _ _ hk1
        · cases tOpt with
          | none => rfl
          | some tt => exact dlookup_dinsert_ne _ _ hk1


end Inscrypt

namespace Inscrypt

theorem kdf_ok (L : CryptoLib)
    (hfix : ∀ h d, (L.hashDigest h d).length = h.digestLen)
    (hxof : ∀ h s d, (L.xofRead h s d).length = s)
    (km : List Nat) (hn : String) (size idx : Nat) (h : HashMod)
    (hget : getHash hn = .ok h) (hnew : h.newRejectsData = false) :
    ∃ key, kdf L km hn size idx = .ok key ∧
      key.length = if h.isXof then size else min size h.digestLen := by
  rw [kdf, hget]
  dsimp only
  rw [hnew]
  simp only [Bool.false_eq_true, if_false]
  by_cases hx : h.isXof = true
  · rw [if_pos hx, if_pos hx]
    exact ⟨_, rfl, hxof h size _⟩
  · rw [if_neg hx, if_neg hx]
    exact ⟨_, rfl, by rw [List.length_take, hfix]⟩

theorem encdec_layers (L : CryptoLib) (rand : Nat → List Nat) (km : List Nat) (hn : String)
    (hdec : ∀ a k n pt, L.dec a k n (L.enc a k n pt) = pt)
    (hb64 : ∀ bs, L.b64d (L.b64e bs) = bs)
    (hfix : ∀ h d, (L.hashDigest h d).length = h.digestLen)
    (hxof : ∀ h s d, (L.xofRead h s d).length = s)
    (h : HashMod) (hget : getHash hn = .ok h) (hnew : h.newRejectsData = false) :
    ∀ (chain : List String) (idx : Nat) (cur : List Nat)
    (ns ts : List (List Char × List Nat)),
    (∀ a ∈ chain, a ∈ supportedAlgoNames) →
    (∀ a ∈ chain,
      (if h.isXof then keySizeFor a else min (keySizeFor a) h.digestLen) = keySizeFor a) →
    ∃ ct ns2 ts2, encLayers L rand km hn chain idx cur ns ts = .ok (ct, ns2, ts2) ∧
      ∀ NS TS, (∀ k ∈ keyRange chain idx,
          dlookup k NS = dlookup k ns2 ∧ dlookup k TS = dlookup k ts2) →
        decLayers L km hn chain idx (mapVals L.b64d NS) (mapVals L.b64d TS) ct = .ok cur := by
  intro chain
  induction chain with
  | nil =>
    intro idx cur ns ts _ _
    exact ⟨cur, ns, ts, rfl, fun NS TS _ => rfl⟩
  | cons algo rest ih =>
    intro idx cur ns ts hsup hks
    have hsa : algo ∈ supportedAlgoNames := hsup algo (List.mem_cons_self _ _)
    have hsrest : ∀ a ∈ rest, a ∈ supportedAlgoNames :=
      fun a ha => hsup a (List.mem_cons_of_mem _ ha)
    obtain ⟨key, hkdf, hklen⟩ := kdf_ok L hfix hxof km hn (keySizeFor algo) idx h hget hnew
    have hkl : key.length = keySizeFor algo := by
      rw [hklen]
      have := hks algo (List.mem_cons_self _ _)
      by_cases hx : h.isXof = true
      · rw [if_pos hx]
      · rw [if_neg hx]
        rw [if_neg hx] at this
        exact this
    obtain ⟨ct1, nOpt, tOpt, henc, hdecRT⟩ :=
      layer_roundtrip L hdec algo hsa key (rand idx) cur hkl
    obtain ⟨ct, NS2, TS2, hencRest, hdecRest⟩ := ih (idx + 1) ct1
      (optInsert (keyName algo idx) L.b64e nOpt ns)
      (optInsert (keyName algo idx) L.b64e tOpt ts)
      hsrest (fun a ha => hks a (List.mem_cons_of_mem _ ha))
    refine ⟨ct, NS2, TS2, ?_, ?_⟩
    · rw [encLayers, hkdf]
      dsimp only
      rw [henc]
      dsimp only
      exact hencRest
    · intro NS TS hagree
      have hknNotIn : keyName algo idx ∉ keyRange rest (idx + 1) :=
        keyName_not_mem_keyRange rest (idx + 1) algo idx
          (supported_no_underscore algo hsa)
          (fun b hb => supported_no_underscore b (hsrest b hb)) (by omega)
      have hpres := encLayers_preserves L rand km hn rest (idx + 1) ct1 _ _ ct NS2 TS2
        hencRest (keyName algo idx) hknNotIn
      have hrec : decLayers L km hn rest (idx + 1) (mapVals L.b64d NS)
          (mapVals L.b64d TS) ct = .ok ct1 :=
        hdecRest NS TS (fun k hk => hagree k (List.mem_cons_of_mem _ hk))
      rw [decLayers, hrec]
      dsimp only
      rw [hkdf]
      dsimp only
      have hheadmem : keyName algo idx ∈ keyRange (algo :: rest) idx :=
        List.mem_cons_self _ _
      have hdisj_n : dlookup (keyName algo idx) (mapVals L.b64d NS) = nOpt ∨ nOpt = none := by
        cases nOpt with
        | none => exact Or.inr rfl
        | some nn =>
          left
          rw [dlookup_mapVals, (hagree _ hheadmem).1, hpres.1]
          rw [show optInsert (keyName algo idx) L.b64e (some nn) ns =
            dinsert (keyName algo idx) (L.b64e nn) ns from rfl, dlookup_dinsert_self]
          simp [hb64]
      have hdisj_t : dlookup (keyName algo idx) (mapVals L.b64d TS) = tOpt ∨ tOpt = none := by
        cases tOpt with
        | none => exact Or.inr rfl
        | some tt =>
          left
          rw [dlookup_mapVals, (hagree _ hheadmem).2, hpres.2]
          rw [show optInsert (keyName algo idx) L.b64e (some tt) ts =
            dinsert (keyName algo idx) (L.b64e tt) ts from rfl, dlookup_dinsert_self]
          simp [hb64]
      exact hdecRT _ _ hdisj_n hdisj_t

end Inscrypt

namespace Inscrypt

/-- C1 amended: the layered round trip holds for every library
satisfying the cipher and base64 contracts, every non-empty chain of
supported algorithm names (repeats included), every password, every
plaintext, and every hash name that the KDF accepts (it resolves in
_HASH_MAP and its module takes a data argument), provided the derived
key of every layer has the full size the algorithm requires - for an
XOF hash always, for a fixed-output hash exactly when the native digest
length is at least the layer key size. Without that proviso the round
trip fails because _kdf silently truncates (see the counterexample). -/
theorem encrypt_then_decrypt_roundtrip (L : CryptoLib) (rand : Nat → List Nat)
    (hdec : ∀ a k n pt, L.dec a k n (L.enc a k n pt) = pt)
    (hb64 : ∀ bs, L.b64d (L.b64e bs) = bs)
    (hfix : ∀ h d, (L.hashDigest h d).length = h.digestLen)
    (hxof : ∀ h s d, (L.xofRead h s d).length = s)
    (chain : List String) (hne : chain ≠ [])
    (hsup : ∀ a ∈ chain, a ∈ supportedAlgoNames)
    (data password : List Nat) (hn : String) (h : HashMod)
    (hget : getHash hn = .ok h) (hnew : h.newRejectsData = false)
    (hks : ∀ a ∈ chain,
      (if h.isXof then keySizeFor a else min (keySizeFor a) h.digestLen) = keySizeFor a) :
    ∃ r : EncryptResult, encrypt_data L rand data password chain hn = .ok r ∧
      decrypt_data L r.encrypted_data password hn none (some r.codebook) = .ok data := by
  obtain ⟨ct, ns2, ts2, henc, hdecAll⟩ := encdec_layers L rand password hn hdec hb64 hfix
    hxof h hget hnew chain 0 data [] [] hsup hks
  refine ⟨⟨L.b64e ct, ⟨hn, chain, ns2, ts2⟩⟩, ?_, ?_⟩
  · rw [encrypt_data, henc]
  · show decLayers L password hn chain 0 (mapVals L.b64d ns2) (mapVals L.b64d ts2)
      (L.b64d (L.b64e ct)) = .ok data
    rw [hb64]
    exact hdecAll ns2 ts2 (fun k _ => ⟨rfl, rfl⟩)

/-- Witness for the C1 amended theorem: the chain aes, chacha20, aes
(repeating aes at indices 0 and 2) with hash sha256 under the concrete
lawful library. -/
theorem encrypt_then_decrypt_roundtrip_witness :
    ∃ r : EncryptResult,
      encrypt_data refLib randZero [1, 2, 3] [5, 6] ["aes", "chacha20", "aes"] "sha256" =
        .ok r ∧
      decrypt_data refLib r.encrypted_data [5, 6] "sha256" none (some r.codebook) =
        .ok [1, 2, 3] :=
  encrypt_then_decrypt_roundtrip refLib randZero (fun _ _ _ _ => rfl) (fun _ => rfl)
    (fun h d => by simp [refLib]) (fun h s d => by simp [refLib])
    ["aes", "chacha20", "aes"] (by decide) (by decide)
    [1, 2, 3] [5, 6] "sha256" .sha256 rfl rfl
    (by intro a ha; fin_cases ha <;> rfl)

/-- C1 counterexample: sha1 is accepted by the KDF, but with the chain
chacha20 the derived key is the 20-byte sha1 digest truncation instead
of the required 32 bytes, so encrypt_data itself fails at cipher
construction and no round trip exists for this supported chain and
accepted hash name. -/
theorem chacha20_sha1_roundtrip_fails :
    getHash "sha1" = .ok HashMod.sha1 ∧
    (∃ key, kdf refLib [112, 119] "sha1" (keySizeFor "chacha20") 0 = .ok key ∧
      key.length = 20) ∧
    encrypt_data refLib randZero [72] [112, 119] ["chacha20"] "sha1" =
      .error "Incorrect key length" :=
  ⟨rfl, ⟨List.replicate 20 0, rfl, rfl⟩, rfl⟩

/-- C10: for every library instantiation, ciphertext, password, hash
name and layer list, calling decrypt_data with encryption_layers
supplied and codebook None returns the UnboundLocalError (a NameError
subclass) raised at the first use of the never-assigned local
nonces_b64, before any base64 decoding or layer decryption, so the
chain-only decryption variant can never return plaintext. -/
theorem decrypt_data_layers_without_codebook_errors (L : CryptoLib)
    (encryptedData password : List Nat) (hn : String) (layers : List String) :
    decrypt_data L encryptedData password hn (some layers) none =
      .error "UnboundLocalError: nonces_b64" := rfl

/-- C8: encrypt_data with an empty chain raises nothing: the layer loop
body never runs and the function returns the base64 encoding of the
unencrypted input together with an empty codebook, for every library,
randomness, input, password and hash name. -/
theorem encrypt_data_empty_chain_returns_encoded_input (L : CryptoLib)
    (rand : Nat → List Nat) (data password : List Nat) (hn : String) :
    encrypt_data L rand data password [] hn =
      .ok ⟨L.b64e data, ⟨hn, [], [], []⟩⟩ := rfl

/-- C9: _get_hash resolves the misspelled kangorootwelve and rejects the
correctly spelled kangarootwelve of the spec enumeration and of the
SUPPORTED_HASH_ALGORITHMS list in the routes; blake2b and blake2s from
the same enumeration are also rejected; names present in _HASH_MAP are
matched case-insensitively, and whirlpool resolves to the aliased
SHA512 module. -/
theorem get_hash_enumeration_mismatch :
    getHash "blake2b" = .error "Unsupported hash: blake2b" ∧
    getHash "blake2s" = .error "Unsupported hash: blake2s" ∧
    getHash "KangarooTwelve" = .error "Unsupported hash: KangarooTwelve" ∧
    getHash "kangorootwelve" = .ok HashMod.kangarooTwelve ∧
    getHash "SHA256" = .ok HashMod.sha256 ∧
    getHash "Whirlpool" = .ok HashMod.sha512 :=
  ⟨rfl, rfl, rfl, rfl, rfl, rfl⟩

/-- C7 counterexample: requesting 32 bytes from sha1 does not fail: _kdf
returns the whole 20-byte digest silently, because the Python slice of
the digest truncates instead of raising. -/
theorem kdf_sha1_32_returns_20_bytes :
    kdf refLib [112, 119] "sha1" 32 0 = .ok (List.replicate 20 0) ∧
    (List.replicate 20 (0 : Nat)).length = 20 ∧ (20 : Nat) ≠ 32 :=
  ⟨rfl, rfl, by decide⟩

/-- C7 amended: _kdf is deterministic (a pure function of password,
hash name, size and layer index) and, whenever the hash name resolves
and the resolved module accepts a data argument (keccak and the
TupleHash modules do not), it succeeds; for an XOF it returns exactly
size bytes, and for a fixed-output hash it returns the first
min(size, native digest length) bytes - silently fewer than size when
size exceeds the digest length, rather than failing. -/
theorem kdf_size_contract (L : CryptoLib)
    (hfix : ∀ h d, (L.hashDigest h d).length = h.digestLen)
    (hxof : ∀ h s d, (L.xofRead h s d).length = s)
    (km : List Nat) (hn : String) (size idx : Nat) (h : HashMod)
    (hget : getHash hn = .ok h) (hnew : h.newRejectsData = false) :
    ∃ key, kdf L km hn size idx = .ok key ∧
      key.length = if h.isXof then size else min size h.digestLen :=
  kdf_ok L hfix hxof km hn size idx h hget hnew

/-- Witness for the C7 amended theorem at sha256 with size 16. -/
theorem kdf_size_contract_witness :
    ∃ key, kdf refLib [112, 119] "sha256" 16 3 = .ok key ∧
      key.length = if HashMod.sha256.isXof then 16 else min 16 HashMod.sha256.digestLen :=
  kdf_size_contract refLib (fun h d => by simp [refLib]) (fun h s d => by simp [refLib])
    [112, 119] "sha256" 16 3 .sha256 rfl rfl

end Inscrypt
